import Mathlib

/-!
Verification of the matching/ranking core of the Assemble_AI repository.

The Python source under src/matching_service/src/matching is shallowly
embedded here: floating point numbers are modelled as rationals, numpy
square roots are a function parameter sq (the concrete examples use inputs
whose squared norms are 0 or 1, where any faithful square root agrees with
the identity function), Python dicts become total functions with a default,
and the pydantic validators and ValueError raises become Except values.
-/

/-- Numeric vectors (Python list / numpy array of floats, modelled as rationals). -/
abbrev Vec := List ℚ

/-- Dot product of two vectors, truncating to the shorter length
(the source only ever uses equal-length vectors). -/
def dot (u v : Vec) : ℚ := (List.zipWith (· * ·) u v).sum

/-- Sum of squares of the entries, so that the numpy 2-norm is sq (sumSq u)
for a square-root function sq. -/
def sumSq (u : Vec) : ℚ := dot u u

/-- The epsilon 1e-12 added to denominators in the source. -/
def eps : ℚ := 1 / 1000000000000

/-- Embedding of cosine_sim from src/matching_service/src/matching/algos.py
(lines 28-35).  The numpy norm is sq applied to the sum of squares, where
sq is the square-root function kept as a parameter. -/
def cosine_sim (sq : ℚ → ℚ) (u v : Vec) : ℚ :=
  if sq (sumSq u) * sq (sumSq v) + eps ≤ 0 then 0
  else dot u v / (sq (sumSq u) * sq (sumSq v) + eps)

/-- Embedding of safe_cosine_sim from algos.py (lines 38-42): a None on
either side yields 0.0. -/
def safe_cosine_sim (sq : ℚ → ℚ) (u v : Option Vec) : ℚ :=
  match u, v with
  | some a, some b => cosine_sim sq a b
  | _, _ => 0

/-- Descending comparison by a rational key; used to model the stable
descending Python sorts (sort with reverse=True), which keep ties in
input order. -/
def relGE (key : α → ℚ) (a b : α) : Prop := key b ≤ key a

instance (key : α → ℚ) : DecidableRel (relGE key) :=
  fun a b => inferInstanceAs (Decidable (key b ≤ key a))

instance (key : α → ℚ) : IsTotal α (relGE key) :=
  ⟨fun a b => le_total (key b) (key a)⟩

instance (key : α → ℚ) : IsTrans α (relGE key) :=
  ⟨fun _ _ _ hab hbc => le_trans hbc hab⟩

/-- Embedding of the MatchingParams pydantic model from
src/matching_service/src/matching/types.py (lines 86-134). -/
structure MatchingParams where
  host_recall_top_n : ℤ
  host_return_top_k : ℤ
  host_mmr_lambda : ℚ
  w_exp : ℚ
  w_interest : ℚ
  w_goal : ℚ
  user_top_l : ℤ
  history_penalty : ℚ
deriving DecidableEq

/-- Construction of MatchingParams.  Pydantic runs the field validators of
types.py (lines 106-125) at construction time: host_mmr_lambda and
history_penalty must lie in (0, 1] and the three integer fields must be
positive.  No validator looks at the weights. -/
def mkMatchingParams (host_recall_top_n host_return_top_k : ℤ)
    (host_mmr_lambda w_exp w_interest w_goal : ℚ)
    (user_top_l : ℤ) (history_penalty : ℚ) : Except String MatchingParams :=
  if ¬ (0 < host_recall_top_n) then .error "must be a positive integer."
  else if ¬ (0 < host_return_top_k) then .error "must be a positive integer."
  else if ¬ (0 < host_mmr_lambda ∧ host_mmr_lambda ≤ 1) then
    .error "host_mmr_lambda must be in (0, 1]."
  else if ¬ (0 < user_top_l) then .error "must be a positive integer."
  else if ¬ (0 < history_penalty ∧ history_penalty ≤ 1) then
    .error "history_penalty must be in (0, 1]."
  else .ok {
    host_recall_top_n := host_recall_top_n
    host_return_top_k := host_return_top_k
    host_mmr_lambda := host_mmr_lambda
    w_exp := w_exp
    w_interest := w_interest
    w_goal := w_goal
    user_top_l := user_top_l
    history_penalty := history_penalty }

/-- Embedding of MatchingParams.validate_logic from types.py (lines
127-134): the cross-field checks (top_n at least top_k, weight sum within
0.95 .. 1.05) live here, not in construction. -/
def validate_logic (p : MatchingParams) : Except String Unit :=
  if p.host_recall_top_n < p.host_return_top_k then
    .error "host_recall_top_n should be >= host_return_top_k."
  else if ¬ ((0.95 : ℚ) ≤ p.w_exp + p.w_interest + p.w_goal ∧
      p.w_exp + p.w_interest + p.w_goal ≤ (1.05 : ℚ)) then
    .error "w_exp + w_interest + w_goal should be ~ 1.0"
  else .ok ()

/-- Embedding of apply_history from
src/matching_service/src/matching/engine.py (lines 163-168); the identical
formula is inlined in build_top_l_edges of algos.py (lines 184-189).  The
Python dict of pair counts is modelled as a total function with default 0. -/
def apply_history (penalty : ℚ) (counts : String × String → ℤ)
    (score : ℚ) (a b : String) : ℚ :=
  if counts (if a < b then (a, b) else (b, a)) ≤ 0 then score
  else score * penalty ^ (counts (if a < b then (a, b) else (b, a))).toNat

/-- One pass of the inner best-candidate loop of mmr_select (algos.py lines
121-146): best_item starts as None (best_mmr minus infinity, so any finite
score beats it) and is replaced exactly when the current score is strictly
greater than the best so far. -/
def mmrBestFold (score : α → ℚ) : Option (α × ℚ) → List α → Option (α × ℚ)
  | acc, [] => acc
  | acc, itm :: rest =>
    match acc with
    | none => mmrBestFold score (some (itm, score itm)) rest
    | some (b, m) =>
      if m < score itm then mmrBestFold score (some (itm, score itm)) rest
      else mmrBestFold score (some (b, m)) rest

/-- Diversity penalty of mmr_select (algos.py lines 127-139): zero when the
item has no vector or nothing is selected, otherwise the maximum cosine
similarity to the selected vectors that are present. -/
def diversityPenalty (sq : ℚ → ℚ) (selVecs : List (Option Vec)) (itemVec : Option Vec) : ℚ :=
  match itemVec with
  | none => 0
  | some iv =>
    if selVecs = [] then 0
    else
      match ((selVecs.filterMap id).map (fun sv => cosine_sim sq iv sv)).max? with
      | none => 0
      | some m => m

/-- MMR score of one item (algos.py line 142). -/
def mmrScore (sq : ℚ → ℚ) (lam : ℚ) (rel : α → ℚ) (vec : α → Option Vec)
    (selVecs : List (Option Vec)) (itm : α) : ℚ :=
  lam * rel itm - (1 - lam) * diversityPenalty sq selVecs (vec itm)

/-- The item selected in one round of mmr_select: the inner loop of algos.py
lines 121-146 applied to the remaining items. -/
def mmrPick (sq : ℚ → ℚ) (lam : ℚ) (rel : α → ℚ) (vec : α → Option Vec)
    (selVecs : List (Option Vec)) (remaining : List α) : Option α :=
  (mmrBestFold (mmrScore sq lam rel vec selVecs) none remaining).map Prod.fst

/-- The outer selection loop of mmr_select (algos.py lines 117-151): repeat
fuel times, each round moving the best remaining item into the selection and
recording its vector. -/
def mmrLoop [DecidableEq α] (sq : ℚ → ℚ) (lam : ℚ) (rel : α → ℚ) (vec : α → Option Vec) :
    ℕ → List (Option Vec) → List α → List α → List α
  | 0, _, selected, _ => selected
  | fuel + 1, selVecs, selected, remaining =>
    if remaining = [] then selected
    else
      match mmrPick sq lam rel vec selVecs remaining with
      | none => selected
      | some best =>
        mmrLoop sq lam rel vec fuel (selVecs ++ [vec best]) (selected ++ [best])
          (remaining.erase best)

/-- Embedding of mmr_select from algos.py (lines 81-153).  The ValueError
for lam outside (0, 1] is modelled as none; the k at most 0 or empty items
shortcut returns the empty list before that check, exactly as in the source. -/
def mmr_select [DecidableEq α] (sq : ℚ → ℚ) (items : List α) (k : ℤ) (lam : ℚ)
    (rel : α → ℚ) (vec : α → Option Vec) : Option (List α) :=
  if k ≤ 0 ∨ items = [] then some []
  else if ¬ (0 < lam ∧ lam ≤ 1) then none
  else some (mmrLoop sq lam rel vec (min k.toNat items.length) [] [] items)

/-- Recursive form of the strict-improvement fold, carrying the current best
item only: the next item replaces the best exactly when its score is
strictly greater. -/
def pickAux (score : α → ℚ) : α → List α → α
  | b, [] => b
  | b, y :: l => if score b < score y then pickAux score y l else pickAux score b l

/-- Embedding of the UserProfile pydantic model from types.py (lines
24-61): text fields plus the five optional vector caches. -/
structure UserProfile where
  user_id : String
  name : String := ""
  role : Option String := some "attendee"
  language : String := "zh"
  tags : List String := []
  exp_text : String := ""
  interest_text : String := ""
  goal_text : String := ""
  need_text : String := ""
  v_exp : Option Vec := none
  v_interest : Option Vec := none
  v_goal : Option Vec := none
  v_need : Option Vec := none
  v_profile : Option Vec := none
  metadata : List (String × String) := []
deriving DecidableEq

/-- Python str.lower, character by character. -/
def strLower (s : String) : String := s.map Char.toLower

/-- Embedding of UserProfile.build_profile_text (types.py lines 63-77). -/
def build_profile_text (u : UserProfile) : String :=
  let parts : List String :=
    (if u.exp_text.trim ≠ "" then ["Experience: " ++ u.exp_text.trim] else []) ++
    (if u.interest_text.trim ≠ "" then ["Interests: " ++ u.interest_text.trim] else []) ++
    (if u.goal_text.trim ≠ "" then ["Goals: " ++ u.goal_text.trim] else []) ++
    (if u.tags ≠ [] then ["Tags: " ++ String.intercalate ", " u.tags] else [])
  (String.intercalate "\n" parts).trim

/-- Embedding of UserProfile.has_need (types.py lines 79-81): true when
need_text is nonempty after stripping whitespace. -/
def hasNeed (u : UserProfile) : Bool := u.need_text.trim ≠ ""

/-- Truthiness of the optional query_language argument in Python: the
language filter of recall_host_candidates only fires when the string is
present and nonempty. -/
def qlangActive (qlang : Option String) : Bool :=
  match qlang with
  | none => false
  | some s => s ≠ ""

/-- The recall similarity computed in
src/matching_service/src/matching/adapters.py (lines 287-302): the query
norm gets its own epsilon, the product denominator another one, and the
value is dot v q over that denominator when it is positive. -/
def recallSim (sq : ℚ → ℚ) (q v : Vec) : ℚ :=
  if 0 < sq (sumSq v) * (sq (sumSq q) + eps) + eps then
    dot v q / (sq (sumSq v) * (sq (sumSq q) + eps) + eps)
  else 0

/-- The scoring pass of InMemoryRetriever.recall_host_candidates
(adapters.py lines 290-303): language-filtered profiles and profiles with
no combined vector are skipped, every other profile is paired with its
recall similarity, in input order. -/
def scoredList (sq : ℚ → ℚ) (q : Vec) (users : List UserProfile)
    (require_same_language : Bool) (qlang : Option String) : List (UserProfile × ℚ) :=
  users.filterMap (fun u =>
    if require_same_language ∧ qlangActive qlang ∧
        strLower u.language ≠ strLower (qlang.getD "") then none
    else
      match u.v_profile with
      | none => none
      | some v => some (u, recallSim sq q v))

/-- Embedding of InMemoryRetriever.recall_host_candidates (adapters.py
lines 278-306): score the pool, sort stably by similarity descending
(Python sort with reverse=True is stable), and keep the first top_n. -/
def recall_host_candidates (sq : ℚ → ℚ) (q : Vec) (users : List UserProfile)
    (top_n : ℕ) (require_same_language : Bool) (qlang : Option String) :
    List (UserProfile × ℚ) :=
  (List.insertionSort (relGE Prod.snd) (scoredList sq q users require_same_language qlang)).take
    top_n

/-- Embedding of the Edge dataclass of algos.py (lines 15-25); the
debug_info dict is irrelevant to the claims and modelled as key-value
pairs. -/
structure Edge where
  user_a : String
  user_b : String
  score : ℚ
  debug_info : List (String × ℚ) := []
deriving DecidableEq

/-- The scan of greedy_max_weight_matching (algos.py lines 221-228):
accept an edge when neither endpoint is already used, recording both
endpoints. -/
def greedyGo : List Edge → List Edge → List String → List Edge
  | [], matched, _ => matched
  | e :: rest, matched, used =>
    if e.user_a ∈ used ∨ e.user_b ∈ used then greedyGo rest matched used
    else greedyGo rest (matched ++ [e]) (used ++ [e.user_a, e.user_b])

/-- Embedding of greedy_max_weight_matching (algos.py lines 209-230):
sort the edges stably by score descending, then scan once. -/
def greedy_max_weight_matching (edges : List Edge) : List Edge :=
  if edges = [] then []
  else greedyGo (List.insertionSort (relGE Edge.score) edges) [] []

/-- The distinct user ids appearing as endpoints of a list of edges. -/
def edgeIds (edges : List Edge) : Finset String :=
  (edges.flatMap (fun e => [e.user_a, e.user_b])).toFinset

/-- Disjointness of two edges: no shared endpoint. -/
def edgeDisj (e f : Edge) : Prop :=
  e.user_a ≠ f.user_a ∧ e.user_a ≠ f.user_b ∧ e.user_b ≠ f.user_a ∧ e.user_b ≠ f.user_b

/-- The needs-a-vector test of build_user_vectors (adapters.py lines
370-388): recompute when overwrite is set, otherwise only when the cached
vector is absent. -/
def needsVec (overwrite : Bool) (cur : Option Vec) : Bool := overwrite || cur.isNone

/-- Position of the user at index i among the users selected by sel: the
batched encode call of build_user_vectors assigns its output vectors to the
selected users in input order, so user i receives the vector at this rank. -/
def rankAmong (users : List UserProfile) (sel : UserProfile → Bool) (i : ℕ) : ℕ :=
  ((users.take i).filter sel).length

/-- Selection test for v_profile in build_user_vectors (adapters.py lines
369-372): only when build_profile was requested. -/
def selProfile (bp ow : Bool) (u : UserProfile) : Bool := bp && needsVec ow u.v_profile

/-- Selection test for v_exp in build_user_vectors (adapters.py line 374). -/
def selExp (ow : Bool) (u : UserProfile) : Bool := needsVec ow u.v_exp

/-- Selection test for v_interest in build_user_vectors (adapters.py line 378). -/
def selInterest (ow : Bool) (u : UserProfile) : Bool := needsVec ow u.v_interest

/-- Selection test for v_goal in build_user_vectors (adapters.py line 382). -/
def selGoal (ow : Bool) (u : UserProfile) : Bool := needsVec ow u.v_goal

/-- Selection test for v_need in build_user_vectors (adapters.py line 386):
only users with a need text are considered. -/
def selNeed (ow : Bool) (u : UserProfile) : Bool := hasNeed u && needsVec ow u.v_need

/-- The texts gathered for one vector field of build_user_vectors: the text
of every selected user, in input order. -/
def fieldTexts (users : List UserProfile) (sel : UserProfile → Bool)
    (txt : UserProfile → String) : List String :=
  (users.filter sel).map txt

/-- The value a vector field of the user at position i receives from one
batched encode call of build_user_vectors: selected users take the encoder
output at their rank among the selected users (Python zip simply stops when
the encoder returned fewer vectors than texts, leaving the old value),
unselected users keep the old value. -/
def vecAssign (vecs : List Vec) (users : List UserProfile) (sel : UserProfile → Bool)
    (i : ℕ) (u : UserProfile) (old : Option Vec) : Option Vec :=
  if sel u then
    match vecs[rankAmong users sel i]? with
    | some v => some v
    | none => old
  else old

/-- The updated profile of the user at position i after build_user_vectors. -/
def updateUser (encode : List String → List Vec) (bp ow : Bool)
    (users : List UserProfile) (i : ℕ) (u : UserProfile) : UserProfile :=
  { u with
    v_profile := vecAssign (encode (fieldTexts users (selProfile bp ow) build_profile_text))
      users (selProfile bp ow) i u u.v_profile
    v_exp := vecAssign (encode (fieldTexts users (selExp ow) UserProfile.exp_text))
      users (selExp ow) i u u.v_exp
    v_interest := vecAssign (encode (fieldTexts users (selInterest ow) UserProfile.interest_text))
      users (selInterest ow) i u u.v_interest
    v_goal := vecAssign (encode (fieldTexts users (selGoal ow) UserProfile.goal_text))
      users (selGoal ow) i u u.v_goal
    v_need := vecAssign (encode (fieldTexts users (selNeed ow) UserProfile.need_text))
      users (selNeed ow) i u u.v_need }

/-- Embedding of build_user_vectors (adapters.py lines 339-414).  For each
of the five vector fields the source gathers the texts of the users needing
that field, encodes them in one batch, and zips the resulting vectors back
onto those users in order; zip truncation means a user beyond the length of
the encoder output keeps its old value.  The in-place mutation is modelled
by returning the updated list of profiles. -/
def build_user_vectors (encode : List String → List Vec)
    (build_profile overwrite : Bool) (users : List UserProfile) : List UserProfile :=
  users.enum.map (fun p => updateUser encode build_profile overwrite users p.1 p.2)

/-! Supporting lemmas about the inner selection loop of mmr_select. -/

theorem mmrBestFold_some_eq (score : α → ℚ) :
    ∀ (l : List α) (b : α),
      mmrBestFold score (some (b, score b)) l =
        some (pickAux score b l, score (pickAux score b l))
  | [], _ => rfl
  | y :: l, b => by
    by_cases h : score b < score y
    · rw [show mmrBestFold score (some (b, score b)) (y :: l) =
          if score b < score y then mmrBestFold score (some (y, score y)) l
          else mmrBestFold score (some (b, score b)) l from rfl]
      rw [if_pos h, pickAux, if_pos h]
      exact mmrBestFold_some_eq score l y
    · rw [show mmrBestFold score (some (b, score b)) (y :: l) =
          if score b < score y then mmrBestFold score (some (y, score y)) l
          else mmrBestFold score (some (b, score b)) l from rfl]
      rw [if_neg h, pickAux, if_neg h]
      exact mmrBestFold_some_eq score l b

theorem mmrPick_nil (sq : ℚ → ℚ) (lam : ℚ) (rel : α → ℚ) (vec : α → Option Vec)
    (selVecs : List (Option Vec)) : mmrPick sq lam rel vec selVecs ([] : List α) = none := rfl

theorem mmrPick_cons (sq : ℚ → ℚ) (lam : ℚ) (rel : α → ℚ) (vec : α → Option Vec)
    (selVecs : List (Option Vec)) (x : α) (l : List α) :
    mmrPick sq lam rel vec selVecs (x :: l) =
      some (pickAux (mmrScore sq lam rel vec selVecs) x l) := by
  unfold mmrPick
  rw [show mmrBestFold (mmrScore sq lam rel vec selVecs) none (x :: l) =
      mmrBestFold (mmrScore sq lam rel vec selVecs)
        (some (x, mmrScore sq lam rel vec selVecs x)) l from rfl]
  rw [mmrBestFold_some_eq]
  rfl

theorem score_le_pickAux (score : α → ℚ) :
    ∀ (l : List α) (b : α), score b ≤ score (pickAux score b l)
  | [], _ => le_refl _
  | y :: l, b => by
    rw [pickAux]
    by_cases h : score b < score y
    · rw [if_pos h]
      exact le_of_lt (lt_of_lt_of_le h (score_le_pickAux score l y))
    · rw [if_neg h]
      exact score_le_pickAux score l b

theorem pickAux_decomp (score : α → ℚ) :
    ∀ (l : List α) (b : α),
      ∃ l1 l2, b :: l = l1 ++ pickAux score b l :: l2 ∧
        (∀ z ∈ l1, score z < score (pickAux score b l)) ∧
        (∀ z ∈ l2, score z ≤ score (pickAux score b l))
  | [], b => ⟨[], [], rfl, by simp, by simp⟩
  | y :: l, b => by
    rw [pickAux]
    by_cases h : score b < score y
    · rw [if_pos h]
      obtain ⟨l1, l2, hdec, h1, h2⟩ := pickAux_decomp score l y
      refine ⟨b :: l1, l2, by rw [List.cons_append, ← hdec], ?_, h2⟩
      intro z hz
      rcases List.mem_cons.1 hz with rfl | hz
      · exact lt_of_lt_of_le h (score_le_pickAux score l y)
      · exact h1 z hz
    · rw [if_neg h]
      have hyb : score y ≤ score b := le_of_not_lt h
      obtain ⟨l1, l2, hdec, h1, h2⟩ := pickAux_decomp score l b
      cases l1 with
      | nil =>
        simp only [List.nil_append] at hdec
        have hb : b = pickAux score b l := (List.cons_eq_cons.1 hdec).1
        have hl : l = l2 := (List.cons_eq_cons.1 hdec).2
        refine ⟨[], y :: l, by rw [List.nil_append, ← hb], by simp, ?_⟩
        intro z hz
        rcases List.mem_cons.1 hz with rfl | hz
        · exact le_trans hyb (le_of_eq (congrArg score hb))
        · exact h2 z (hl ▸ hz)
      | cons a l1 =>
        rw [List.cons_append] at hdec
        have ha : a = b := (List.cons_eq_cons.1 hdec).1.symm
        have hl : l = l1 ++ pickAux score b l :: l2 := (List.cons_eq_cons.1 hdec).2
        have hbc : score b < score (pickAux score b l) := by
          have := h1 a (List.mem_cons_self a l1)
          rwa [ha] at this
        refine ⟨b :: y :: l1, l2, by rw [List.cons_append, List.cons_append, ← hl], ?_, h2⟩
        intro z hz
        rcases List.mem_cons.1 hz with rfl | hz
        · exact hbc
        rcases List.mem_cons.1 hz with rfl | hz
        · exact lt_of_le_of_lt hyb hbc
        · exact h1 z (List.mem_cons_of_mem a hz)

theorem pickAux_mem (score : α → ℚ) (l : List α) (b : α) :
    pickAux score b l ∈ b :: l := by
  obtain ⟨l1, l2, hdec, -, -⟩ := pickAux_decomp score l b
  rw [hdec]
  exact List.mem_append.2 (Or.inr (List.mem_cons_self _ _))

theorem mmrLoop_length [DecidableEq α] (sq : ℚ → ℚ) (lam : ℚ) (rel : α → ℚ)
    (vec : α → Option Vec) :
    ∀ (fuel : ℕ) (selVecs : List (Option Vec)) (selected remaining : List α),
      (mmrLoop sq lam rel vec fuel selVecs selected remaining).length =
        selected.length + min fuel remaining.length
  | 0, _, sel, rem => by simp [mmrLoop]
  | fuel + 1, sv, sel, rem => by
    cases rem with
    | nil => simp [mmrLoop]
    | cons x t =>
      rw [mmrLoop, if_neg (List.cons_ne_nil x t), mmrPick_cons]
      rw [mmrLoop_length sq lam rel vec fuel _ _ _]
      have hmem : pickAux (mmrScore sq lam rel vec sv) x t ∈ x :: t := pickAux_mem _ _ _
      rw [List.length_erase_of_mem hmem, List.length_append]
      simp only [List.length_cons, List.length_nil, List.length_singleton,
        Nat.add_sub_cancel, Nat.succ_min_succ]
      omega

theorem mmrLoop_perm [DecidableEq α] (sq : ℚ → ℚ) (lam : ℚ) (rel : α → ℚ)
    (vec : α → Option Vec) :
    ∀ (fuel : ℕ) (selVecs : List (Option Vec)) (selected remaining : List α),
      remaining.length ≤ fuel →
      List.Perm (mmrLoop sq lam rel vec fuel selVecs selected remaining)
        (selected ++ remaining)
  | 0, _, sel, rem, h => by
    have : rem = [] := List.length_eq_zero.1 (Nat.le_zero.1 h)
    subst this
    simp [mmrLoop]
  | fuel + 1, sv, sel, rem, h => by
    cases rem with
    | nil => simp [mmrLoop]
    | cons x t =>
      rw [mmrLoop, if_neg (List.cons_ne_nil x t), mmrPick_cons]
      have hmem : pickAux (mmrScore sq lam rel vec sv) x t ∈ x :: t := pickAux_mem _ _ _
      have hlen : ((x :: t).erase (pickAux (mmrScore sq lam rel vec sv) x t)).length ≤ fuel := by
        rw [List.length_erase_of_mem hmem]
        simp only [List.length_cons, Nat.add_sub_cancel]
        exact Nat.le_of_succ_le_succ h
      refine (mmrLoop_perm sq lam rel vec fuel _ _ _ hlen).trans ?_
      rw [List.append_assoc]
      refine List.Perm.append_left sel ?_
      refine List.Perm.trans ?_ (List.perm_cons_erase hmem).symm
      simp

/-! Supporting lemmas about the stable descending insertion sort used to
model the Python sorts. -/

theorem orderedInsert_eq_cons (key : α → ℚ) (c : α) (S : List α)
    (h : ∀ z ∈ S, key z ≤ key c) :
    List.orderedInsert (relGE key) c S = c :: S := by
  cases S with
  | nil => rfl
  | cons s S =>
    exact List.orderedInsert_of_le (relGE key) S (h s (List.mem_cons_self s S))

theorem insertionSort_front (key : α → ℚ) :
    ∀ (l1 : List α) (c : α) (l2 : List α),
      (∀ z ∈ l1, key z < key c) → (∀ z ∈ l2, key z ≤ key c) →
      List.insertionSort (relGE key) (l1 ++ c :: l2) =
        c :: List.insertionSort (relGE key) (l1 ++ l2)
  | [], c, l2, _, h2 => by
    simp only [List.nil_append, List.insertionSort]
    exact orderedInsert_eq_cons key c _
      (fun z hz => h2 z ((List.mem_insertionSort (relGE key)).1 hz))
  | a :: l1, c, l2, h1, h2 => by
    have ha : key a < key c := h1 a (List.mem_cons_self a l1)
    have hih := insertionSort_front key l1 c l2
      (fun z hz => h1 z (List.mem_cons_of_mem a hz)) h2
    calc List.insertionSort (relGE key) (a :: l1 ++ c :: l2)
        = List.orderedInsert (relGE key) a
            (List.insertionSort (relGE key) (l1 ++ c :: l2)) := rfl
      _ = List.orderedInsert (relGE key) a
            (c :: List.insertionSort (relGE key) (l1 ++ l2)) := by rw [hih]
      _ = c :: List.orderedInsert (relGE key) a
            (List.insertionSort (relGE key) (l1 ++ l2)) := by
          show (if relGE key a c then _ else _) = _
          rw [if_neg (show ¬ relGE key a c from not_le.mpr ha)]
      _ = c :: List.insertionSort (relGE key) (a :: l1 ++ l2) := rfl

theorem insertionSort_pick_head (key : α → ℚ) [DecidableEq α] (x : α) (l : List α) :
    List.insertionSort (relGE key) (x :: l) =
      pickAux key x l :: List.insertionSort (relGE key) ((x :: l).erase (pickAux key x l)) := by
  obtain ⟨l1, l2, hdec, h1, h2⟩ := pickAux_decomp key l x
  have hcnot : pickAux key x l ∉ l1 := fun hc => absurd (h1 _ hc) (lt_irrefl _)
  rw [hdec, insertionSort_front key l1 _ l2 h1 h2,
    List.erase_append_right _ hcnot, List.erase_cons_head]

theorem mmrScore_one (sq : ℚ → ℚ) (rel : α → ℚ) (vec : α → Option Vec)
    (selVecs : List (Option Vec)) :
    mmrScore sq 1 rel vec selVecs = rel := by
  funext itm
  unfold mmrScore
  ring

theorem mmrLoop_one [DecidableEq α] (sq : ℚ → ℚ) (rel : α → ℚ) (vec : α → Option Vec) :
    ∀ (fuel : ℕ) (selVecs : List (Option Vec)) (selected remaining : List α),
      mmrLoop sq 1 rel vec fuel selVecs selected remaining =
        selected ++ (List.insertionSort (relGE rel) remaining).take fuel
  | 0, _, sel, rem => by simp [mmrLoop]
  | fuel + 1, sv, sel, rem => by
    cases rem with
    | nil => simp [mmrLoop]
    | cons x t =>
      rw [mmrLoop, if_neg (List.cons_ne_nil x t), mmrPick_cons, mmrScore_one]
      show mmrLoop sq 1 rel vec fuel (sv ++ [vec (pickAux rel x t)])
          (sel ++ [pickAux rel x t]) ((x :: t).erase (pickAux rel x t)) =
        sel ++ (List.insertionSort (relGE rel) (x :: t)).take (fuel + 1)
      rw [mmrLoop_one sq rel vec fuel _ _ _, insertionSort_pick_head rel x t,
        List.take_succ_cons, List.append_assoc, List.singleton_append]

/-! Supporting lemmas for the stability of the descending sort: filtering
the sorted list at a fixed key value returns exactly the equal-key items in
their input order. -/

theorem orderedInsert_filter_key (key : α → ℚ) (s : ℚ) (a : α) :
    ∀ (m : List α),
      (List.orderedInsert (relGE key) a m).filter (fun z => decide (key z = s)) =
        ((a :: m).filter (fun z => decide (key z = s)))
  | [] => rfl
  | b :: m => by
    by_cases hr : relGE key a b
    · rw [List.orderedInsert_of_le (relGE key) m hr]
    · have hab : key a < key b := not_le.1 hr
      have hstep : List.orderedInsert (relGE key) a (b :: m) =
          b :: List.orderedInsert (relGE key) a m := by
        simp only [List.orderedInsert]
        exact if_neg hr
      rw [hstep]
      have hrec := orderedInsert_filter_key key s a m
      by_cases hbs : key b = s
      · have has : ¬ key a = s := fun h => absurd (h.trans hbs.symm) (ne_of_lt hab)
        simp [List.filter_cons, hbs, has, hrec]
      · simp [List.filter_cons, hbs, hrec]

theorem insertionSort_filter_key (key : α → ℚ) (s : ℚ) :
    ∀ (l : List α),
      (List.insertionSort (relGE key) l).filter (fun z => decide (key z = s)) =
        l.filter (fun z => decide (key z = s))
  | [] => rfl
  | x :: l => by
    show (List.orderedInsert (relGE key) x
        (List.insertionSort (relGE key) l)).filter (fun z => decide (key z = s)) = _
    rw [orderedInsert_filter_key key s x (List.insertionSort (relGE key) l)]
    simp [List.filter_cons, insertionSort_filter_key key s l]

/-! Supporting lemmas about dot products and squared norms. -/

theorem dot_comm (u v : Vec) : dot u v = dot v u := by
  unfold dot
  rw [List.zipWith_comm_of_comm (· * ·) mul_comm u v]

theorem sumSq_cons (x : ℚ) (t : Vec) : sumSq (x :: t) = x * x + sumSq t := by
  simp [sumSq, dot]

theorem sumSq_nonneg : ∀ (u : Vec), 0 ≤ sumSq u
  | [] => le_refl 0
  | x :: t => by
    rw [sumSq_cons]
    exact add_nonneg (mul_self_nonneg x) (sumSq_nonneg t)

theorem dot_eq_zero_of_sumSq_eq_zero : ∀ (u v : Vec), sumSq u = 0 → dot u v = 0
  | [], _, _ => rfl
  | _ :: _, [], _ => rfl
  | x :: t, y :: s, h => by
    rw [sumSq_cons] at h
    have h1 : x = 0 := mul_self_eq_zero.1
      (le_antisymm (by linarith [sumSq_nonneg t]) (mul_self_nonneg x))
    have h2 : sumSq t = 0 :=
      le_antisymm (by linarith [mul_self_nonneg x]) (sumSq_nonneg t)
    show x * y + dot t s = 0
    rw [h1, zero_mul, zero_add]
    exact dot_eq_zero_of_sumSq_eq_zero t s h2

theorem cosine_sim_comm (sq : ℚ → ℚ) (u v : Vec) :
    cosine_sim sq u v = cosine_sim sq v u := by
  unfold cosine_sim
  rw [mul_comm (sq (sumSq u)) (sq (sumSq v)), dot_comm]

theorem cosine_sim_eq_zero_of_sumSq_eq_zero (sq : ℚ → ℚ) (u v : Vec)
    (h : sumSq u = 0 ∨ sumSq v = 0) : cosine_sim sq u v = 0 := by
  have hdot : dot u v = 0 := by
    rcases h with h | h
    · exact dot_eq_zero_of_sumSq_eq_zero u v h
    · rw [dot_comm]
      exact dot_eq_zero_of_sumSq_eq_zero v u h
  unfold cosine_sim
  split
  · rfl
  · rw [hdot, zero_div]

/-! Claim theorems. -/

/-- C7: safe_cosine_sim is symmetric in its two arguments, and returns 0
whenever either argument is None or either present vector has zero squared
norm (which covers empty vectors, since an empty vector has squared norm
0); every such case returns 0 rather than raising a division error, the
function being total. -/
theorem c7_safe_cosine_sim_spec (sq : ℚ → ℚ) (u v : Option Vec) :
    safe_cosine_sim sq u v = safe_cosine_sim sq v u ∧
    ((u = none ∨ v = none) → safe_cosine_sim sq u v = 0) ∧
    (∀ a b : Vec, u = some a → v = some b → sumSq a = 0 ∨ sumSq b = 0 →
      safe_cosine_sim sq u v = 0) := by
  refine ⟨?_, ?_, ?_⟩
  · cases u with
    | none => cases v with | none => rfl | some b => rfl
    | some a => cases v with | none => rfl | some b => exact cosine_sim_comm sq a b
  · rintro (rfl | rfl)
    · cases v with | none => rfl | some b => rfl
    · cases u with | none => rfl | some a => rfl
  · rintro a b rfl rfl h
    exact cosine_sim_eq_zero_of_sumSq_eq_zero sq a b h

/-- Witness for C7 at concrete inputs: a None argument and a zero vector
argument both give similarity 0. -/
theorem c7_witness :
    safe_cosine_sim id none (some [1]) = 0 ∧
    safe_cosine_sim id (some [0, 0]) (some [1, 1]) = 0 :=
  ⟨(c7_safe_cosine_sim_spec id none (some [1])).2.1 (Or.inl rfl),
   (c7_safe_cosine_sim_spec id (some [0, 0]) (some [1, 1])).2.2 [0, 0] [1, 1] rfl rfl
     (Or.inl (by norm_num [sumSq_cons, sumSq, dot]))⟩

/-- C9: the history penalty of the matching engine.  A zero pair count
leaves the score unchanged, a count n of at least 1 multiplies the score by
history_penalty to the power n, and the canonicalised unordered key makes
the result independent of the argument order. -/
theorem c9_apply_history_spec (p : ℚ) (counts : String × String → ℤ)
    (s : ℚ) (a b : String) :
    (counts (if a < b then (a, b) else (b, a)) = 0 → apply_history p counts s a b = s) ∧
    (∀ n : ℕ, 1 ≤ n → counts (if a < b then (a, b) else (b, a)) = (n : ℤ) →
      apply_history p counts s a b = s * p ^ n) ∧
    apply_history p counts s a b = apply_history p counts s b a := by
  refine ⟨?_, ?_, ?_⟩
  · intro h
    unfold apply_history
    rw [h]
    rfl
  · intro n hn h
    unfold apply_history
    rw [h, if_neg (show ¬ ((n : ℤ) ≤ 0) by omega)]
    norm_num
  · have hkey : (if a < b then (a, b) else (b, a)) = (if b < a then (b, a) else (a, b)) := by
      rcases lt_trichotomy a b with h | h | h
      · rw [if_pos h, if_neg (asymm h)]
      · subst h
        simp
      · rw [if_neg (asymm h), if_pos h]
    unfold apply_history
    rw [hkey]

/-- Witness for C9 at concrete inputs: a stored count of 2 for the pair
("a", "b") multiplies the score by the penalty squared, in both argument
orders. -/
theorem c9_witness :
    1 ≤ 2 ∧
    (fun k => if k = ("a", "b") then (2 : ℤ) else 0)
      (if "a" < "b" then ("a", "b") else ("b", "a")) = ((2 : ℕ) : ℤ) ∧
    apply_history (4/5) (fun k => if k = ("a", "b") then (2 : ℤ) else 0) 1 "a" "b" =
      1 * (4/5) ^ 2 ∧
    apply_history (4/5) (fun k => if k = ("a", "b") then (2 : ℤ) else 0) 1 "a" "b" =
      apply_history (4/5) (fun k => if k = ("a", "b") then (2 : ℤ) else 0) 1 "b" "a" := by
  have hab : ("a" : String) < "b" := String.lt_iff_toList_lt.mpr (by decide)
  have hcnt : (fun k => if k = ("a", "b") then (2 : ℤ) else 0)
      (if "a" < "b" then ("a", "b") else ("b", "a")) = ((2 : ℕ) : ℤ) := by
    rw [if_pos hab]
    norm_num
  refine ⟨by norm_num, hcnt, ?_, ?_⟩
  · exact (c9_apply_history_spec (4/5) (fun k => if k = ("a", "b") then (2 : ℤ) else 0)
      1 "a" "b").2.1 2 (by norm_num) hcnt
  · exact (c9_apply_history_spec (4/5) (fun k => if k = ("a", "b") then (2 : ℤ) else 0)
      1 "a" "b").2.2

/-- Counterexample to C3 as stated: constructing MatchingParams with the
three weights each 1/2 (sum 1.5) succeeds, and constructing with a negative
individual weight also succeeds; no weight check runs at construction time,
and validate_logic accepts the negative weight whose sum is in range. -/
theorem c3_counterexample :
    mkMatchingParams 1000 100 (1/2) (1/2) (1/2) (1/2) 20 (4/5) =
      Except.ok ⟨1000, 100, 1/2, 1/2, 1/2, 1/2, 20, 4/5⟩ ∧
    mkMatchingParams 1000 100 (1/2) (-(1/2)) 1 (1/2) 20 (4/5) =
      Except.ok ⟨1000, 100, 1/2, -(1/2), 1, 1/2, 20, 4/5⟩ ∧
    validate_logic ⟨1000, 100, 1/2, -(1/2), 1, 1/2, 20, 4/5⟩ = Except.ok () := by
  refine ⟨?_, ?_, ?_⟩ <;> norm_num [mkMatchingParams, validate_logic]

/-- C3 amended: construction of MatchingParams never inspects the weights;
it fails exactly when host_mmr_lambda or history_penalty leaves (0, 1] or
one of the integer size fields is nonpositive.  The weight-sum check (1.0
with tolerance 0.05) and the top_n at least top_k check are deferred to
validate_logic, which the engine entry points run before matching; no check
anywhere rejects a negative individual weight whose sum is in range. -/
theorem c3_amended_validation (n k : ℤ) (lam we wi wg : ℚ) (l : ℤ) (hp : ℚ) :
    ((∃ p, mkMatchingParams n k lam we wi wg l hp = Except.ok p) ↔
      (0 < n ∧ 0 < k ∧ 0 < lam ∧ lam ≤ 1 ∧ 0 < l ∧ 0 < hp ∧ hp ≤ 1)) ∧
    (∀ p : MatchingParams,
      validate_logic p = Except.ok () ↔
        (p.host_return_top_k ≤ p.host_recall_top_n ∧
         (0.95 : ℚ) ≤ p.w_exp + p.w_interest + p.w_goal ∧
         p.w_exp + p.w_interest + p.w_goal ≤ (1.05 : ℚ))) := by
  constructor
  · unfold mkMatchingParams
    split_ifs with h1 h2 h3 h4 h5 <;>
      first
        | exact iff_of_true ⟨_, rfl⟩ (by tauto)
        | exact iff_of_false (by rintro ⟨p, hp⟩; simp at hp) (by tauto)
  · intro p
    unfold validate_logic
    split_ifs with g1 g2 <;>
      first
        | exact iff_of_true rfl ⟨not_lt.1 g1, g2.1, g2.2⟩
        | exact iff_of_false (by simp) (fun hr => absurd hr.1 (not_le.mpr g1))
        | exact iff_of_false (by simp) (by tauto)

/-- Witness for C3 amended: in-range arguments construct successfully, and
a parameter set with weights 0.5/0.3/0.2 passes validate_logic. -/
theorem c3_witness :
    ((0:ℤ) < 1000 ∧ (0:ℤ) < 100 ∧ (0:ℚ) < 1/2 ∧ (1:ℚ)/2 ≤ 1 ∧ (0:ℤ) < 20 ∧
      (0:ℚ) < 4/5 ∧ (4:ℚ)/5 ≤ 1) ∧
    (∃ p, mkMatchingParams 1000 100 (1/2) (1/2) (1/2) (1/2) 20 (4/5) = Except.ok p) ∧
    validate_logic ⟨1000, 100, 1/2, 1/2, 3/10, 1/5, 20, 4/5⟩ = Except.ok () := by
  refine ⟨by norm_num, ?_, ?_⟩
  · exact (c3_amended_validation 1000 100 (1/2) (1/2) (1/2) (1/2) 20 (4/5)).1.mpr
      (by norm_num)
  · exact ((c3_amended_validation 1000 100 (1/2) (1/2) (3/10) (1/5) 20 (4/5)).2
      ⟨1000, 100, 1/2, 1/2, 3/10, 1/5, 20, 4/5⟩).mpr (by norm_num)

/-- C1: for every item list, every k at least 1, every lambda in (0, 1] and
every (finite, here rational) relevance and vector assignment, mmr_select
raises no error and returns a list of length exactly min k (number of
items). -/
theorem c1_mmr_select_length [DecidableEq α] (sq : ℚ → ℚ) (items : List α) (k : ℤ)
    (lam : ℚ) (rel : α → ℚ) (vec : α → Option Vec)
    (hk : 1 ≤ k) (h0 : 0 < lam) (h1 : lam ≤ 1) :
    (mmr_select sq items k lam rel vec).map List.length =
      some (min k.toNat items.length) := by
  unfold mmr_select
  by_cases hi : items = []
  · subst hi
    rw [if_pos (Or.inr rfl)]
    simp
  · rw [if_neg (by push_neg; exact ⟨by omega, hi⟩), if_neg (not_not_intro ⟨h0, h1⟩)]
    simp only [Option.map_some']
    rw [mmrLoop_length]
    simp only [List.length_nil, Nat.zero_add]
    exact congrArg some (by omega)

/-- Witness for C1 at a concrete input: three items, k equal to 2 and
lambda one half give exactly two selected items. -/
theorem c1_witness :
    (1 : ℤ) ≤ 2 ∧ (0 : ℚ) < 1/2 ∧ (1 : ℚ)/2 ≤ 1 ∧
    (mmr_select id [0, 1, 2] 2 (1/2) (fun _ => (0 : ℚ)) (fun _ => none)).map List.length =
      some (min (2 : ℤ).toNat ([0, 1, 2] : List ℕ).length) :=
  ⟨by norm_num, by norm_num, by norm_num,
   c1_mmr_select_length id [0, 1, 2] 2 (1/2) (fun _ => (0 : ℚ)) (fun _ => none)
     (by norm_num) (by norm_num) (by norm_num)⟩

/-- Counterexample to C4 as stated: with items [0, 1], k = 2 (so the whole
list is returned), lambda = 1, relevance 0 for item 0 and 1 for item 1,
mmr_select returns [1, 0], not the input list [0, 1]: the loop has no
shortcut returning the input unchanged, it always emits items in MMR
selection order. -/
theorem c4_counterexample :
    mmr_select id [0, 1] 2 1 (fun n => if n = 0 then (0 : ℚ) else 1) (fun _ => none) =
      some [1, 0] ∧ ([1, 0] : List ℕ) ≠ [0, 1] := by
  constructor
  · norm_num [mmr_select, mmrLoop, mmrPick, mmrBestFold, mmrScore, diversityPenalty,
      List.erase_cons]
    simp
  · simp

/-- C4 amended: for every item list whose length is at most k and every
lambda in (0, 1], mmr_select returns all the input items, but in MMR
selection order, which is a permutation of the input and not in general the
input order. -/
theorem c4_amended_perm [DecidableEq α] (sq : ℚ → ℚ) (items : List α) (k : ℤ)
    (lam : ℚ) (rel : α → ℚ) (vec : α → Option Vec)
    (hlen : (items.length : ℤ) ≤ k) (h0 : 0 < lam) (h1 : lam ≤ 1) :
    ∃ out, mmr_select sq items k lam rel vec = some out ∧ List.Perm out items := by
  unfold mmr_select
  by_cases hi : items = []
  · subst hi
    rw [if_pos (Or.inr rfl)]
    exact ⟨[], rfl, List.Perm.refl []⟩
  · have hpos : 0 < items.length := List.length_pos.mpr hi
    rw [if_neg (by push_neg; exact ⟨by omega, hi⟩), if_neg (not_not_intro ⟨h0, h1⟩)]
    refine ⟨_, rfl, ?_⟩
    have hfuel : items.length ≤ min k.toNat items.length := by omega
    simpa using mmrLoop_perm sq lam rel vec (min k.toNat items.length) [] [] items hfuel

/-- Witness for C4 amended at a concrete input: two items, k = 3, lambda
one half. -/
theorem c4_witness :
    (([0, 1] : List ℕ).length : ℤ) ≤ 3 ∧ (0 : ℚ) < 1/2 ∧ (1 : ℚ)/2 ≤ 1 ∧
    ∃ out, mmr_select id [0, 1] 3 (1/2) (fun _ => (0 : ℚ)) (fun _ => none) = some out ∧
      List.Perm out [0, 1] :=
  ⟨by norm_num, by norm_num, by norm_num,
   c4_amended_perm id [0, 1] 3 (1/2) (fun _ => (0 : ℚ)) (fun _ => none)
     (by norm_num) (by norm_num) (by norm_num)⟩

/-- C5: with lambda = 1 the diversity term is multiplied by zero, so
mmr_select returns exactly the first k items of the stable descending sort
of the items by relevance (stable: items of equal relevance stay in input
order), for every k, including the degenerate cases k at most 0 and an
empty item list. -/
theorem c5_lambda_one_pure_relevance [DecidableEq α] (sq : ℚ → ℚ) (items : List α)
    (k : ℤ) (rel : α → ℚ) (vec : α → Option Vec) :
    mmr_select sq items k 1 rel vec =
      some ((List.insertionSort (relGE rel) items).take k.toNat) := by
  unfold mmr_select
  by_cases hk : k ≤ 0
  · rw [if_pos (Or.inl hk), Int.toNat_of_nonpos hk, List.take_zero]
  · by_cases hi : items = []
    · subst hi
      rw [if_pos (Or.inr rfl)]
      simp
    · rw [if_neg (by push_neg; exact ⟨by omega, hi⟩),
        if_neg (not_not_intro ⟨by norm_num, le_refl 1⟩)]
      rw [mmrLoop_one sq rel vec (min k.toNat items.length) [] [] items]
      rw [← List.length_insertionSort (relGE rel) items, ← List.take_take,
        List.take_length]
      simp

/-- C6 amended: in every round of mmr_select the selected item is the
earliest remaining item attaining the maximal MMR score of that round: all
strictly earlier remaining items have strictly smaller MMR score and all
later ones score at most the selected item.  Raw relevance is not consulted
as a tie-break: among items of equal MMR score the earliest position wins
even when a later item has higher raw relevance. -/
theorem c6_amended_earliest_max [DecidableEq α] (sq : ℚ → ℚ) (lam : ℚ)
    (rel : α → ℚ) (vec : α → Option Vec) (fuel : ℕ) (selVecs : List (Option Vec))
    (selected : List α) (x : α) (l : List α) :
    ∃ c, mmrPick sq lam rel vec selVecs (x :: l) = some c ∧
      mmrLoop sq lam rel vec (fuel + 1) selVecs selected (x :: l) =
        mmrLoop sq lam rel vec fuel (selVecs ++ [vec c]) (selected ++ [c])
          ((x :: l).erase c) ∧
      ∃ l1 l2, x :: l = l1 ++ c :: l2 ∧
        (∀ z ∈ l1, mmrScore sq lam rel vec selVecs z <
          mmrScore sq lam rel vec selVecs c) ∧
        (∀ z ∈ l2, mmrScore sq lam rel vec selVecs z ≤
          mmrScore sq lam rel vec selVecs c) := by
  refine ⟨pickAux (mmrScore sq lam rel vec selVecs) x l,
    mmrPick_cons sq lam rel vec selVecs x l, ?_, ?_⟩
  · rw [mmrLoop, if_neg (List.cons_ne_nil x l), mmrPick_cons]
  · exact pickAux_decomp (mmrScore sq lam rel vec selVecs) l x

/-- Relevance assignment for the C6 counterexample: item 0 has relevance
10, item 1 relevance 0, item 2 relevance 1/(1+eps). -/
def c6rel (n : ℕ) : ℚ := if n = 0 then 10 else if n = 1 then 0 else 1 / (1 + eps)

/-- Vector assignment for the C6 counterexample: items 0 and 2 share the
unit vector [1, 0], item 1 has no vector. -/
def c6vec (n : ℕ) : Option Vec := if n = 1 then none else some [1, 0]

/-- Counterexample to C6 as stated: with lambda one half, round 1 selects
item 0; in round 2 the unselected items 1 and 2 have equal MMR score, item
2 has strictly higher raw relevance, yet mmr_select picks item 1 (the
earlier position) and returns [0, 1]: the tie is not broken by raw
relevance. -/
theorem c6_counterexample :
    mmrScore id (1/2) c6rel c6vec [some [1, 0]] 1 =
      mmrScore id (1/2) c6rel c6vec [some [1, 0]] 2 ∧
    c6rel 1 < c6rel 2 ∧
    mmr_select id [0, 1, 2] 2 (1/2) c6rel c6vec = some [0, 1] := by
  refine ⟨?_, ?_, ?_⟩
  · norm_num [mmrScore, diversityPenalty, c6rel, c6vec, cosine_sim, dot, sumSq, eps,
      List.max?, List.filterMap_cons, List.filterMap_nil, id_eq]
  · norm_num [c6rel, eps]
  · norm_num [mmr_select, mmrLoop, mmrPick, mmrBestFold, mmrScore, diversityPenalty,
      c6rel, c6vec, cosine_sim, dot, sumSq, eps, List.erase_cons, List.max?,
      List.filterMap_cons, List.filterMap_nil, id_eq]
    simp

/-- C2: the recall contract of the in-memory retriever.  The returned
list has length at most top_n and at most the pool size; it is sorted by
similarity descending; profiles without a combined vector are never
returned (they are skipped when scoring, not an error); and for every
similarity value the returned entries with that value form a prefix of the
scored pool entries with that value in input order, so ties keep the
original input order (first seen wins). -/
theorem c2_recall_contract (sq : ℚ → ℚ) (q : Vec) (users : List UserProfile)
    (top_n : ℕ) (rsl : Bool) (qlang : Option String) :
    (recall_host_candidates sq q users top_n rsl qlang).length ≤ top_n ∧
    (recall_host_candidates sq q users top_n rsl qlang).length ≤ users.length ∧
    List.Pairwise (fun a b : UserProfile × ℚ => b.2 ≤ a.2)
      (recall_host_candidates sq q users top_n rsl qlang) ∧
    (∀ x ∈ recall_host_candidates sq q users top_n rsl qlang, x.1.v_profile ≠ none) ∧
    (∀ s : ℚ,
      List.IsPrefix
        ((recall_host_candidates sq q users top_n rsl qlang).filter
          (fun z => decide (z.2 = s)))
        ((scoredList sq q users rsl qlang).filter (fun z => decide (z.2 = s)))) := by
  refine ⟨?_, ?_, ?_, ?_, ?_⟩
  · unfold recall_host_candidates
    rw [List.length_take]
    exact min_le_left _ _
  · unfold recall_host_candidates
    rw [List.length_take]
    refine le_trans (min_le_right _ _) ?_
    rw [List.length_insertionSort]
    exact List.length_filterMap_le _ _
  · unfold recall_host_candidates
    have hs := List.sorted_insertionSort (relGE (Prod.snd : UserProfile × ℚ → ℚ))
      (scoredList sq q users rsl qlang)
    exact (hs.sublist (List.take_sublist _ _)).imp (fun h => h)
  · intro x hx
    have hx2 : x ∈ scoredList sq q users rsl qlang := by
      unfold recall_host_candidates at hx
      exact (List.mem_insertionSort _).1 (List.take_subset _ _ hx)
    unfold scoredList at hx2
    obtain ⟨u, _, hf⟩ := List.mem_filterMap.1 hx2
    split at hf
    · simp at hf
    · split at hf
      · simp at hf
      · rename_i v hv
        rw [Option.some_inj] at hf
        rw [← hf]
        simp [hv]
  · intro s
    unfold recall_host_candidates
    have hpre := (List.take_prefix top_n
      (List.insertionSort (relGE (Prod.snd : UserProfile × ℚ → ℚ))
        (scoredList sq q users rsl qlang))).filter (fun z => decide (z.2 = s))
    rwa [insertionSort_filter_key (Prod.snd : UserProfile × ℚ → ℚ) s] at hpre

/-- Profile with no combined vector, used in the C2 witness. -/
def wUser0 : UserProfile := { user_id := "u0" }

/-- Profile with combined vector [1], used in the C2 witness. -/
def wUser1 : UserProfile := { user_id := "u1", v_profile := some [1] }

/-- Second profile with combined vector [1], used in the C2 witness. -/
def wUser2 : UserProfile := { user_id := "u2", v_profile := some [1] }

/-- Witness for C2 at a concrete input: with an empty query vector both
vector-bearing profiles score 0 and are returned in input order, and the
returned entry for wUser1 indeed carries a combined vector. -/
theorem c2_witness :
    ((wUser1, (0 : ℚ)) ∈ recall_host_candidates id [] [wUser0, wUser1, wUser2] 5 false none) ∧
    (wUser1, (0 : ℚ)).1.v_profile ≠ none := by
  have hmem : (wUser1, (0 : ℚ)) ∈
      recall_host_candidates id [] [wUser0, wUser1, wUser2] 5 false none := by
    norm_num [recall_host_candidates, scoredList, qlangActive, recallSim, dot, sumSq, eps,
      wUser0, wUser1, wUser2, List.insertionSort, List.orderedInsert, relGE]
  exact ⟨hmem,
    (c2_recall_contract id [] [wUser0, wUser1, wUser2] 5 false none).2.2.2.1 _ hmem⟩

/-! Supporting lemmas about the greedy matching scan. -/

theorem greedyGo_pairwise :
    ∀ (es matched : List Edge) (used : List String),
      List.Pairwise edgeDisj matched →
      (∀ f ∈ matched, f.user_a ∈ used ∧ f.user_b ∈ used) →
      List.Pairwise edgeDisj (greedyGo es matched used)
  | [], matched, _, h1, _ => h1
  | e :: rest, matched, used, h1, h2 => by
    rw [greedyGo]
    split_ifs with hc
    · exact greedyGo_pairwise rest matched used h1 h2
    · push_neg at hc
      refine greedyGo_pairwise rest (matched ++ [e]) (used ++ [e.user_a, e.user_b]) ?_ ?_
      · rw [List.pairwise_append]
        refine ⟨h1, List.pairwise_singleton _ _, ?_⟩
        intro f hf e' he'
        rw [List.mem_singleton] at he'
        subst he'
        obtain ⟨ha, hb⟩ := h2 f hf
        exact ⟨fun h => hc.1 (h ▸ ha), fun h => hc.2 (h ▸ ha),
          fun h => hc.1 (h ▸ hb), fun h => hc.2 (h ▸ hb)⟩
      · intro f hf
        rcases List.mem_append.1 hf with hf | hf
        · obtain ⟨ha, hb⟩ := h2 f hf
          exact ⟨List.mem_append_left _ ha, List.mem_append_left _ hb⟩
        · rw [List.mem_singleton] at hf
          subst hf
          exact ⟨List.mem_append_right _ (by simp), List.mem_append_right _ (by simp)⟩

theorem greedyGo_card (allIds : Finset String) :
    ∀ (es matched : List Edge) (used : List String),
      2 * matched.length ≤ used.toFinset.card →
      used.toFinset ⊆ allIds →
      (∀ e ∈ es, e.user_a ∈ allIds ∧ e.user_b ∈ allIds) →
      (∀ e ∈ es, e.user_a ≠ e.user_b) →
      2 * (greedyGo es matched used).length ≤ allIds.card
  | [], matched, used, hcard, hsub, _, _ => by
    rw [greedyGo]
    exact le_trans hcard (Finset.card_le_card hsub)
  | e :: rest, matched, used, hcard, hsub, hids, hself => by
    rw [greedyGo]
    split_ifs with hc
    · exact greedyGo_card allIds rest matched used hcard hsub
        (fun f hf => hids f (List.mem_cons_of_mem e hf))
        (fun f hf => hself f (List.mem_cons_of_mem e hf))
    · push_neg at hc
      have hne : e.user_a ≠ e.user_b := hself e (List.mem_cons_self e rest)
      have hA : e.user_a ∉ used.toFinset := by
        rw [List.mem_toFinset]
        exact hc.1
      have hB : e.user_b ∉ used.toFinset := by
        rw [List.mem_toFinset]
        exact hc.2
      have hfin : (used ++ [e.user_a, e.user_b]).toFinset =
          insert e.user_a (insert e.user_b used.toFinset) := by
        ext z
        simp only [List.toFinset_append, Finset.mem_union, List.mem_toFinset,
          List.mem_cons, List.mem_singleton, List.not_mem_nil, or_false,
          Finset.mem_insert]
        tauto
      refine greedyGo_card allIds rest (matched ++ [e]) (used ++ [e.user_a, e.user_b]) ?_ ?_
        (fun f hf => hids f (List.mem_cons_of_mem e hf))
        (fun f hf => hself f (List.mem_cons_of_mem e hf))
      · rw [hfin, Finset.card_insert_of_not_mem (by simp [hA, hne]),
          Finset.card_insert_of_not_mem hB, List.length_append]
        simp only [List.length_singleton]
        omega
      · rw [hfin]
        intro z hz
        rcases Finset.mem_insert.1 hz with rfl | hz
        · exact (hids e (List.mem_cons_self e rest)).1
        rcases Finset.mem_insert.1 hz with rfl | hz
        · exact (hids e (List.mem_cons_self e rest)).2
        · exact hsub hz

/-- C8 amended: the edges accepted by greedy_max_weight_matching are
pairwise disjoint (no id is an endpoint of two accepted edges), for every
input; and when every input edge joins two distinct ids, the number of
accepted edges is at most half the number of distinct ids among the input
edges, rounded down.  A self-loop edge breaks the count bound (see the
counterexample) but not disjointness. -/
theorem c8_greedy_disjoint_and_bound (edges : List Edge) :
    List.Pairwise edgeDisj (greedy_max_weight_matching edges) ∧
    ((∀ e ∈ edges, e.user_a ≠ e.user_b) →
      (greedy_max_weight_matching edges).length ≤ (edgeIds edges).card / 2) := by
  unfold greedy_max_weight_matching
  by_cases h : edges = []
  · subst h
    simp
  · rw [if_neg h]
    constructor
    · exact greedyGo_pairwise _ [] [] List.Pairwise.nil (by simp)
    · intro hself
      have hmem : ∀ e, e ∈ List.insertionSort (relGE Edge.score) edges ↔ e ∈ edges :=
        fun e => List.mem_insertionSort _
      have h2 : 2 * (greedyGo (List.insertionSort (relGE Edge.score) edges) [] []).length ≤
          (edgeIds edges).card := by
        refine greedyGo_card (edgeIds edges) _ [] [] (by simp) (by simp) ?_ ?_
        · intro e he
          have he2 : e ∈ edges := (hmem e).1 he
          constructor
          · rw [edgeIds, List.mem_toFinset]
            exact List.mem_flatMap.2 ⟨e, he2, by simp⟩
          · rw [edgeIds, List.mem_toFinset]
            exact List.mem_flatMap.2 ⟨e, he2, by simp⟩
        · exact fun e he => hself e ((hmem e).1 he)
      omega

/-- Counterexample to C8 as stated: a single self-loop edge ("a", "a") is
accepted, giving one output edge while the input has one distinct id, so
the bound floor(1 / 2) = 0 fails. -/
theorem c8_counterexample :
    ¬ ((greedy_max_weight_matching [Edge.mk "a" "a" 1 []]).length ≤
      (edgeIds [Edge.mk "a" "a" 1 []]).card / 2) := by
  have h1 : greedy_max_weight_matching [Edge.mk "a" "a" 1 []] = [Edge.mk "a" "a" 1 []] := by
    norm_num [greedy_max_weight_matching, greedyGo, List.insertionSort, List.orderedInsert]
  have h2 : (edgeIds [Edge.mk "a" "a" 1 []]).card = 1 := by
    simp [edgeIds]
  rw [h1, h2]
  norm_num

/-- Witness for C8 amended: one edge between the distinct ids "a" and "b"
is accepted, and 1 is at most floor(2 / 2). -/
theorem c8_witness :
    (∀ e ∈ [Edge.mk "a" "b" 1 []], e.user_a ≠ e.user_b) ∧
    (greedy_max_weight_matching [Edge.mk "a" "b" 1 []]).length ≤
      (edgeIds [Edge.mk "a" "b" 1 []]).card / 2 :=
  ⟨by decide, (c8_greedy_disjoint_and_bound [Edge.mk "a" "b" 1 []]).2 (by decide)⟩

theorem build_user_vectors_getElem (encode : List String → List Vec) (bp ow : Bool)
    (users : List UserProfile) (i : ℕ) (u : UserProfile) (h : users[i]? = some u) :
    (build_user_vectors encode bp ow users)[i]? =
      some (updateUser encode bp ow users i u) := by
  unfold build_user_vectors
  rw [List.getElem?_map, List.getElem?_enum, h]
  rfl

/-- C10: build_user_vectors with overwrite false is conservative.  The
output list has the same length, every already-populated vector field of
every profile is returned unchanged (only fields that were None can be
assigned), and every non-vector field of every profile is untouched. -/
theorem c10_build_user_vectors_frame (encode : List String → List Vec) (bp : Bool)
    (users : List UserProfile) :
    (build_user_vectors encode bp false users).length = users.length ∧
    (∀ (i : ℕ) (u : UserProfile), users[i]? = some u →
      ∃ u' : UserProfile, (build_user_vectors encode bp false users)[i]? = some u' ∧
        (u.v_profile.isSome = true → u'.v_profile = u.v_profile) ∧
        (u.v_exp.isSome = true → u'.v_exp = u.v_exp) ∧
        (u.v_interest.isSome = true → u'.v_interest = u.v_interest) ∧
        (u.v_goal.isSome = true → u'.v_goal = u.v_goal) ∧
        (u.v_need.isSome = true → u'.v_need = u.v_need) ∧
        u'.user_id = u.user_id ∧ u'.name = u.name ∧ u'.role = u.role ∧
        u'.language = u.language ∧ u'.tags = u.tags ∧ u'.exp_text = u.exp_text ∧
        u'.interest_text = u.interest_text ∧ u'.goal_text = u.goal_text ∧
        u'.need_text = u.need_text ∧ u'.metadata = u.metadata) := by
  constructor
  · unfold build_user_vectors
    rw [List.length_map, List.enum_length]
  · intro i u h
    refine ⟨updateUser encode bp false users i u,
      build_user_vectors_getElem encode bp false users i u h,
      ?_, ?_, ?_, ?_, ?_, rfl, rfl, rfl, rfl, rfl, rfl, rfl, rfl, rfl, rfl⟩
    all_goals
      intro hsome
      obtain ⟨w, hw⟩ := Option.isSome_iff_exists.1 hsome
      simp [updateUser, vecAssign, needsVec, selProfile, selExp, selInterest, selGoal,
        selNeed, hw]

/-- Profile with a populated v_exp, used in the C10 witness. -/
def wUser3 : UserProfile := { user_id := "w", v_exp := some [2] }

/-- Witness for C10 at a concrete input: an encoder that returns [9] for
every text does not touch the already-populated v_exp of wUser3 when
overwrite is false. -/
theorem c10_witness :
    ([wUser3][0]? = some wUser3) ∧ wUser3.v_exp.isSome = true ∧
    ∃ u', (build_user_vectors (fun ts => ts.map (fun _ => [9])) true false [wUser3])[0]? =
      some u' ∧ u'.v_exp = wUser3.v_exp := by
  refine ⟨rfl, rfl, ?_⟩
  obtain ⟨u', hu', -, hexp, -⟩ :=
    (c10_build_user_vectors_frame (fun ts => ts.map (fun _ => [9])) true [wUser3]).2 0
      wUser3 rfl
  exact ⟨u', hu', hexp rfl⟩
